import Mathlib

/-!
Shallow embedding of the Monte-Carlo commodity-portfolio simulator
(`monte_carlo.py`, `portfolio_analysis.py`, `config.py`) and proofs about it.

Conventions of the embedding:
* float values are idealized as exact numbers: the simulation pipeline is
  embedded over `ℝ` (it applies `log`, `exp`, `sqrt`), the risk analyzer over
  `ℚ` (its arithmetic is rational, so every definition is executable);
* a pandas `DataFrame` / 2-D numpy array is a `List (List _)` (rows = time,
  columns = assets), a 3-D array is a `List (List (List _))`;
* `raise ValueError` / `numpy.linalg.LinAlgError` become `Except SimErr`;
* `np.random.normal(size=(T, S, n))` is modelled by materializing a
  `(T, S, n)` tensor from an arbitrary noise function `ℕ → ℕ → ℕ → ℝ`
  supplied as a parameter: theorems quantify over all noise realizations;
* `numpy` division by zero does not raise: it silently produces `inf`/`nan`.
  The embedding uses the total field division of `ℝ`/`ℚ` (junk value `0`)
  for those silent cases; what matters for the claims is only that no
  exception is raised there.
-/

/-- Errors surfaced by the embedded pipeline: `invalidInput` stands for the
`ValueError`s raised on malformed caller data, `linalgFail` for
`numpy.linalg.LinAlgError` escaping from `np.linalg.cholesky`, and
`shapeMismatch` for the `ValueError` numpy raises on a shape mismatch
(e.g. in `np.tensordot`). -/
inductive SimErr : Type
  | invalidInput
  | linalgFail
  | shapeMismatch
  deriving DecidableEq, Repr

abbrev Mat : Type := List (List ℝ)

abbrev Tens : Type := List (List (List ℝ))

/-- Entry `(s, a)` of a 2-D array, with junk default `0` out of bounds. -/
def ent2 (M : Mat) (s a : ℕ) : ℝ :=
  (M.getD s []).getD a 0

/-- Entry `(t, s, a)` of a 3-D array, with junk default `0` out of bounds. -/
def ent3 (Z : Tens) (t s a : ℕ) : ℝ :=
  ((Z.getD t []).getD s []).getD a 0

/-- `RISK_FREE_RATE` from `config.py` (0.02, annualized). -/
noncomputable def RISK_FREE_RATE : ℝ := 2 / 100

/-- `np.isclose(a, b, rtol=0.01)` with numpy's default `atol=1e-8`:
`|a - b| <= atol + rtol * |b|`. -/
def np_isclose (a b : ℝ) : Prop :=
  |a - b| ≤ 1 / 100000000 + (1 / 100) * |b|

/-- Column `j` of a row-major table (pandas column extraction). -/
def colJ (m : Mat) (j : ℕ) : List ℝ :=
  m.map (fun r => r.getD j 0)

/-- All columns of a rectangular table, in order. -/
def npCols (m : Mat) : Mat :=
  (List.range (m.headD []).length).map (colJ m)

/-- Arithmetic mean of a list of reals (`numpy`/`pandas .mean()`);
junk `0` on the empty list (numpy would warn and give `nan`). -/
noncomputable def meanR (l : List ℝ) : ℝ :=
  l.sum / l.length

/-- Sample covariance of two columns with `ddof = 1` (`pandas .cov()`):
`Σ (xᵢ - x̄)(yᵢ - ȳ) / (m - 1)`. -/
noncomputable def covPair (x y : List ℝ) : ℝ :=
  ((x.zip y).map (fun p => (p.1 - meanR x) * (p.2 - meanR y))).sum / ((x.length : ℝ) - 1)

/-- Per-column means of a returns table (`returns.mean().values`). -/
noncomputable def colMeans (returns : Mat) : List ℝ :=
  (npCols returns).map meanR

/-- Sample covariance matrix of a returns table (`returns.cov().values`). -/
noncomputable def covMatrixOf (returns : Mat) : Mat :=
  (npCols returns).map (fun ci => (npCols returns).map (fun cj => covPair ci cj))

open Classical in
/-- `calculate_daily_returns` (`portfolio_analysis.py`, lines 38-55): raise
`ValueError` if any price is non-positive, otherwise return
`np.log(data / data.shift(1)).dropna()` — row `t` of the result is the
elementwise log-ratio of price rows `t+1` and `t`, and only the first row
(the one with no predecessor) contains `nan` and is dropped. -/
noncomputable def calculate_daily_returns (data : Mat) : Except SimErr Mat :=
  if ∃ r ∈ data, ∃ x ∈ r, x ≤ 0 then .error .invalidInput
  else .ok ((data.tail.zip data).map (fun p =>
    (p.1.zip p.2).map (fun q => Real.log (q.1 / q.2))))

/-- Schur complement step used by the Cholesky recursion: given the pivot
`alpha`, the first column below it `b` and the trailing block `C`, return
`C - b bᵀ / alpha`. -/
noncomputable def schurComp (alpha : ℝ) (b : List ℝ) (C : Mat) : Mat :=
  (C.zip b).map (fun p => (p.1.zip b).map (fun q => q.1 - p.2 * q.2 / alpha))

/-- Success condition of LAPACK's `potrf` as called by `np.linalg.cholesky`:
the factorization succeeds iff every pivot is strictly positive, i.e. the
matrix is positive definite; it raises `LinAlgError` on a merely positive
semidefinite (singular) matrix. -/
def cholOk : Mat → Prop
  | [] => True
  | r :: rs =>
    0 < r.headD 0 ∧
      cholOk (schurComp (r.headD 0) (rs.map (fun row => row.headD 0)) (rs.map List.tail))
termination_by A => A.length
decreasing_by
  simp only [schurComp, List.length_map, List.length_zip, List.length_cons]
  omega

/-- The lower-triangular factor computed by `np.linalg.cholesky` (meaningful
when `cholOk` holds; junk otherwise, since `Real.sqrt`/division are total). -/
noncomputable def np_cholesky : Mat → Mat
  | [] => []
  | r :: rs =>
    let alpha := r.headD 0
    let d := Real.sqrt alpha
    let b := rs.map (fun row => row.headD 0)
    let rest := np_cholesky (schurComp alpha b (rs.map List.tail))
    (d :: List.replicate rs.length 0) ::
      ((b.map (fun x => x / d)).zip rest).map (fun p => p.1 :: p.2)
termination_by A => A.length
decreasing_by
  simp only [schurComp, List.length_map, List.length_zip, List.length_cons]
  omega

/-- Square-matrix view of a row-major list matrix (entry default `0`). -/
def listToMatrix (n : ℕ) (m : Mat) : Matrix (Fin n) (Fin n) ℝ :=
  Matrix.of fun i j => (m.getD i []).getD j 0

/-- Row-major list of a square matrix. -/
def matrixToList (n : ℕ) (M : Matrix (Fin n) (Fin n) ℝ) : Mat :=
  (List.finRange n).map (fun i => (List.finRange n).map (fun j => M i j))

/-- The eigenvalue-clamping fallback of `monte_carlo.py` lines 54-56 on the
square-matrix view: `eigvals, eigvecs = np.linalg.eigh(cov)`, clamp the
negative eigenvalues to zero, and reconstruct
`eigvecs @ np.diag(eigvals) @ eigvecs.T`.  Modelled through Mathlib's
spectral decomposition of a Hermitian (here: real symmetric) matrix, which
is exactly the semantics `np.linalg.eigh` implements; for a non-symmetric
argument (`eigh` would silently read only one triangle; unreachable here
because a sample covariance matrix is symmetric) the matrix is returned
unchanged. -/
noncomputable def clampPSD {n : ℕ} (A : Matrix (Fin n) (Fin n) ℝ) :
    Matrix (Fin n) (Fin n) ℝ :=
  if hA : A.IsHermitian then
    (hA.eigenvectorUnitary : Matrix (Fin n) (Fin n) ℝ) *
      Matrix.diagonal (fun i => max (hA.eigenvalues i) 0) *
      star (hA.eigenvectorUnitary : Matrix (Fin n) (Fin n) ℝ)
  else A

/-- Lines 54-56 of `monte_carlo.py` on the list representation. -/
noncomputable def np_eigh_clamp (cov : Mat) : Mat :=
  matrixToList cov.length (clampPSD (listToMatrix cov.length cov))

open Classical in
/-- Lines 49-57 of `monte_carlo.py`: try `np.linalg.cholesky`; on failure
clamp the negative eigenvalues and retry; a failure of the retry escapes
as `LinAlgError`. -/
noncomputable def choleskyStage (cov : Mat) : Except SimErr Mat :=
  if cholOk cov then .ok (np_cholesky cov)
  else if cholOk (np_eigh_clamp cov) then .ok (np_cholesky (np_eigh_clamp cov))
  else .error .linalgFail

/-- Scalar multiple of a 2-D array. -/
noncomputable def smulMat (c : ℝ) (M : Mat) : Mat :=
  M.map (fun r => r.map (fun x => c * x))

/-- Elementwise sum of two 2-D arrays (same shape at every use site). -/
noncomputable def addMat (A B : Mat) : Mat :=
  List.zipWith (fun ra rb => List.zipWith (· + ·) ra rb) A B

/-- Sum of a list of equally-shaped 2-D arrays (empty list gives `[]`). -/
noncomputable def sumMats : List Mat → Mat
  | [] => []
  | [M] => M
  | M :: Ms => addMat M (sumMats Ms)

/-- `np.tensordot(M, Z, axes=1)` for a 2-D `M` and 3-D `Z`: numpy contracts
the last axis of `M` with the FIRST axis of `Z` and raises a shape-mismatch
`ValueError` unless those lengths agree.  Row `i` of the result is
`Σ_t M[i][t] * Z[t]`. -/
noncomputable def np_tensordot (M : Mat) (Z : Tens) : Except SimErr Tens :=
  if (M.headD []).length = Z.length then
    .ok (M.map (fun row => sumMats (List.zipWith smulMat row Z)))
  else .error .shapeMismatch

/-- Line 62 of `monte_carlo.py`: `mean_returns.reshape(-1, 1, 1) +
correlated_returns` — the mean vector is broadcast along the FIRST axis of
the contracted tensor. -/
noncomputable def addMean (mean : List ℝ) (corr : Tens) : Tens :=
  List.zipWith (fun mu Mi => Mi.map (fun row => row.map (fun x => mu + x))) mean corr

/-- Lines 61-62 of `monte_carlo.py`: contract with the factor, then add the
mean vector. -/
noncomputable def dailyStage (mean : List ℝ) (chol : Mat) (Z : Tens) :
    Except SimErr Tens :=
  (np_tensordot chol Z).map (addMean mean)

/-- Time-slice `t` of `price_paths` (lines 66-70 of `monte_carlo.py`):
slice 0 is the last observed prices broadcast over the simulation axis,
slice `t` (for `1 ≤ t < T`) is the previous slice times `exp` of the
daily-return slice `t`; slices at `t ≥ T` are never written by the loop and
keep the `np.zeros_like` zeros. -/
noncomputable def pathSlice (T : ℕ) (init : Mat) (daily : Tens) : ℕ → Mat
  | 0 => init
  | t + 1 =>
    if t + 1 < T then
      List.zipWith (fun pr dr => List.zipWith (fun p d => p * Real.exp d) pr dr)
        (pathSlice T init daily t) (daily.getD (t + 1) [])
    else (daily.getD (t + 1) []).map (fun r => r.map (fun _ => (0 : ℝ)))

open Classical in
/-- `monte_carlo_simulation` (`monte_carlo.py`, lines 7-75).  `data` is the
price table, `T`/`S` the `time_horizon`/`sims` parameters, and `noise` the
stream of standard-normal draws: the function materializes a
`(T, S, len(weights))` tensor from it exactly where the source calls
`np.random.normal` (the optional seed only selects the stream, so it is
represented by the choice of `noise` itself).  Steps, in source order:
validate the weight count and the weight sum, compute daily log-returns
(may raise on non-positive prices), take their mean vector and covariance
matrix, factorize with the clamping fallback, draw the noise, contract it
with the factor (`np.tensordot`), add the mean vector, build the price
paths, and aggregate them with the weights along the first axis. -/
noncomputable def monte_carlo_simulation (data : Mat) (weights : List ℝ)
    (T S : ℕ) (noise : ℕ → ℕ → ℕ → ℝ) : Except SimErr (Mat × Tens) :=
  if weights.length ≠ (data.headD []).length then .error .invalidInput
  else if ¬ np_isclose weights.sum 1 then .error .invalidInput
  else
    (calculate_daily_returns data).bind (fun returns =>
      let mean := colMeans returns
      let cov := covMatrixOf returns
      (choleskyStage cov).bind (fun chol =>
        let Z : Tens := (List.range T).map (fun t =>
          (List.range S).map (fun s =>
            (List.range weights.length).map (fun a => noise t s a)))
        (dailyStage mean chol Z).bind (fun daily =>
          let lastP := data.getLastD []
          let init : Mat := (List.range S).map (fun _ => lastP)
          let pp : Tens := (List.range daily.length).map (pathSlice T init daily)
          let port : Mat := sumMats (List.zipWith smulMat weights pp)
          .ok (port, pp))))

/-- Linear-interpolation percentile, `np.percentile(l, q)` for
`0 ≤ q ≤ 100`: sort ascending, take the virtual index `h = q (m-1) / 100`,
and interpolate between the order statistics at `⌊h⌋` and `⌊h⌋ + 1`. -/
def np_percentile (l : List ℚ) (q : ℚ) : ℚ :=
  let s := List.insertionSort (· ≤ ·) l
  let h : ℚ := q * ((l.length : ℚ) - 1) / 100
  let i : ℕ := (Int.floor h).toNat
  let lo := s.getD i 0
  let hi := s.getD (i + 1) lo
  lo + (h - (i : ℚ)) * (hi - lo)

/-- Arithmetic mean over `ℚ` (`np.mean`); junk `0` on the empty list, where
numpy silently produces `nan`. -/
def np_mean (l : List ℚ) : ℚ :=
  l.sum / l.length

/-- `np.median`: middle order statistic, or the average of the two middle
ones for even length. -/
def np_median (l : List ℚ) : ℚ :=
  let s := List.insertionSort (· ≤ ·) l
  if l.length % 2 = 1 then s.getD (l.length / 2) 0
  else (s.getD (l.length / 2 - 1) 0 + s.getD (l.length / 2) 0) / 2

/-- `np.min` of a list (meaningful on non-empty input). -/
def np_min (l : List ℚ) : ℚ :=
  l.foldr min (l.headD 0)

/-- `np.max` of a list (meaningful on non-empty input). -/
def np_max (l : List ℚ) : ℚ :=
  l.foldr max (l.headD 0)

/-- `calculate_value_at_risk` (`monte_carlo.py`, lines 77-90): the
`100 * (1 - confidence_level)` percentile of the terminal row
`portfolio_paths[-1]`. -/
def calculate_value_at_risk (paths : List (List ℚ)) (c : ℚ) : ℚ :=
  np_percentile (paths.getLastD []) (100 * (1 - c))

/-- `calculate_expected_shortfall` (`monte_carlo.py`, lines 92-106): mean of
the terminal values that are `≤` the VaR at the same confidence level.  The
selection's mean is unguarded in the source: on an empty selection numpy
would silently give `nan` (junk `0` here). -/
def calculate_expected_shortfall (paths : List (List ℚ)) (c : ℚ) : ℚ :=
  let fv := paths.getLastD []
  np_mean (fv.filter (fun x => x ≤ calculate_value_at_risk paths c))

/-- The metrics dictionary built by `analyze_simulation_results`. -/
structure RiskMetrics where
  mean : ℚ
  median : ℚ
  stdDev : ℝ
  minV : ℚ
  maxV : ℚ
  var95 : ℚ
  cvar95 : ℚ
  p5 : ℚ
  p25 : ℚ
  p75 : ℚ
  p95 : ℚ

/-- `analyze_simulation_results` (`monte_carlo.py`, lines 108-132): the
summary statistics of the terminal row, with `var_95`/`cvar_95` computed by
the two risk functions at their default confidence level `0.95`. -/
noncomputable def analyze_simulation_results (paths : List (List ℚ)) : RiskMetrics :=
  let fv := paths.getLastD []
  { mean := np_mean fv
    median := np_median fv
    stdDev := Real.sqrt ((np_mean (fv.map (fun x => (x - np_mean fv) ^ 2)) : ℚ) : ℝ)
    minV := np_min fv
    maxV := np_max fv
    var95 := calculate_value_at_risk paths (95 / 100)
    cvar95 := calculate_expected_shortfall paths (95 / 100)
    p5 := np_percentile fv 5
    p25 := np_percentile fv 25
    p75 := np_percentile fv 75
    p95 := np_percentile fv 95 }

/-- `w · (C w)`, the quadratic form `np.dot(weights.T, np.dot(cov, weights))`
used for the portfolio variance. -/
noncomputable def quadForm (w : List ℝ) (C : Mat) : ℝ :=
  (List.zipWith (fun wi ci => wi * (List.zipWith (· * ·) ci w).sum) w C).sum

open Classical in
/-- `calculate_portfolio_stats` (`portfolio_analysis.py`, lines 57-86):
validate the weight sum (`np.isclose(·, 1, rtol=0.01)`) and the weight
count, then return annualized return, volatility and the Sharpe ratio
`(return - RISK_FREE_RATE) / volatility`.  The Sharpe division is
unguarded in the source: zero volatility silently gives a numpy
`inf`/`nan` (junk `0` here), never an exception. -/
noncomputable def calculate_portfolio_stats (returns : Mat) (weights : List ℝ)
    (tradingDays : ℕ) : Except SimErr (ℝ × ℝ × ℝ) :=
  if ¬ np_isclose weights.sum 1 then .error .invalidInput
  else if weights.length ≠ (returns.headD []).length then .error .invalidInput
  else
    let cov := smulMat (tradingDays : ℝ) (covMatrixOf returns)
    let ret := (List.zipWith (· * ·) (colMeans returns) weights).sum * (tradingDays : ℝ)
    let vol := Real.sqrt (quadForm weights cov)
    .ok (ret, vol, (ret - RISK_FREE_RATE) / vol)

/-- `generate_random_portfolios` (`portfolio_analysis.py`, lines 88-132).
`draws` models the `np.random.random(n)` raw weight draws, one per
portfolio; each is normalized to sum 1 and its return/volatility/Sharpe
are computed with no validation and no volatility guard — the function
cannot raise, so its result type is a plain list of
`(return, volatility, weights, sharpe)` records in draw order. -/
noncomputable def generate_random_portfolios (returns : Mat)
    (draws : List (List ℝ)) (tradingDays : ℕ) : List (ℝ × ℝ × List ℝ × ℝ) :=
  let cov := smulMat (tradingDays : ℝ) (covMatrixOf returns)
  let mean := (colMeans returns).map (fun x => x * (tradingDays : ℝ))
  draws.map (fun d =>
    let w := d.map (fun x => x / d.sum)
    let r := (List.zipWith (· * ·) mean w).sum
    let v := Real.sqrt (quadForm w cov)
    (r, v, w, (r - RISK_FREE_RATE) / v))

/-- Single-asset price series whose daily log-returns are
`(-1, -1, 0, 1, 1)`: mean `0`, sample variance (`ddof = 1`) exactly `1`. -/
noncomputable def data1 : Mat :=
  [[1], [Real.exp (-1)], [Real.exp (-2)], [Real.exp (-2)], [Real.exp (-1)], [1]]

/-- Two-asset price series whose daily log-return columns are
`(-1, -1, 0, 1, 1)` and `(1, -1, 0, -1, 1)`: both means `0`, both sample
variances `1`, sample covariance `0` — so the covariance matrix is the
identity and the Cholesky factor is the identity. -/
noncomputable def data2 : Mat :=
  [[1, 1], [Real.exp (-1), Real.exp 1], [Real.exp (-2), 1], [Real.exp (-2), 1],
    [Real.exp (-1), Real.exp (-1)], [1, 1]]

/-- Noise stream whose draw at time-index `t` is the constant `t`. -/
noncomputable def nuT : ℕ → ℕ → ℕ → ℝ := fun t _ _ => (t : ℝ)

/-- The all-zero noise stream. -/
noncomputable def nu0 : ℕ → ℕ → ℕ → ℝ := fun _ _ _ => (0 : ℝ)

/-- A 2-D array of shape `S × n` (every row has length `n`). -/
def isRect (M : Mat) (S n : ℕ) : Prop :=
  M.length = S ∧ ∀ r ∈ M, r.length = n

/-! ### Shared lemmas about the risk analyzer -/

/-- The linear-interpolation percentile of a non-empty list at any
`q ∈ [0, 100]` is bounded below by one of the list's elements (namely the
order statistic the interpolation starts from). -/
theorem np_percentile_ge_some (l : List ℚ) (q : ℚ) (hl : l ≠ [])
    (h0 : 0 ≤ q) (h100 : q ≤ 100) : ∃ x ∈ l, x ≤ np_percentile l q := by
  have hperm : List.Perm (List.insertionSort (· ≤ ·) l) l := List.perm_insertionSort _ l
  have hsort : List.Sorted (· ≤ ·) (List.insertionSort (· ≤ ·) l) :=
    List.sorted_insertionSort _ l
  have hlen : (List.insertionSort (· ≤ ·) l).length = l.length := hperm.length_eq
  have hm : 0 < l.length := List.length_pos.mpr hl
  have hm1 : (1 : ℚ) ≤ (l.length : ℚ) := by exact_mod_cast hm
  set h : ℚ := q * ((l.length : ℚ) - 1) / 100 with hdef
  have hh0 : 0 ≤ h := by
    apply div_nonneg (mul_nonneg h0 (by linarith)) (by norm_num)
  have hhle : h ≤ (l.length : ℚ) - 1 := by
    rw [hdef, div_le_iff₀ (by norm_num : (0 : ℚ) < 100)]
    nlinarith
  have hfl0 : 0 ≤ ⌊h⌋ := Int.floor_nonneg.mpr hh0
  set i : ℕ := (⌊h⌋).toNat with hidef
  have hicast : ((i : ℚ)) = ((⌊h⌋ : ℤ) : ℚ) := by
    rw [hidef]; exact_mod_cast congrArg Int.cast (Int.toNat_of_nonneg hfl0)
  have hile : (i : ℚ) ≤ h := by rw [hicast]; exact Int.floor_le h
  have hilt : i < l.length := by
    have h1 : (i : ℚ) ≤ (l.length : ℚ) - 1 := le_trans hile hhle
    have h2 : (i : ℚ) < (l.length : ℚ) := by linarith
    exact_mod_cast h2
  have hilt' : i < (List.insertionSort (· ≤ ·) l).length := by rw [hlen]; exact hilt
  have hlo : (List.insertionSort (· ≤ ·) l).getD i 0 =
      (List.insertionSort (· ≤ ·) l).get ⟨i, hilt'⟩ := by
    rw [List.getD_eq_getElem _ _ hilt']; simp
  refine ⟨(List.insertionSort (· ≤ ·) l).get ⟨i, hilt'⟩,
    hperm.subset (List.get_mem _ _ _), ?_⟩
  show _ ≤ np_percentile l q
  rw [np_percentile]
  simp only [← hdef, ← hidef, hlo]
  have hfrac : 0 ≤ h - (i : ℚ) := by linarith [hile]
  have hhi : (List.insertionSort (· ≤ ·) l).get ⟨i, hilt'⟩ ≤
      (List.insertionSort (· ≤ ·) l).getD (i + 1)
        ((List.insertionSort (· ≤ ·) l).get ⟨i, hilt'⟩) := by
    by_cases hcase : i + 1 < (List.insertionSort (· ≤ ·) l).length
    · rw [List.getD_eq_getElem _ _ hcase]
      have := hsort.rel_get_of_lt (a := ⟨i, hilt'⟩) (b := ⟨i + 1, hcase⟩)
        (by simp [Fin.lt_def])
      simpa using this
    · rw [List.getD_eq_default _ _ (by omega)]
  nlinarith [mul_nonneg hfrac (sub_nonneg.mpr hhi)]

/-- The mean of a non-empty list of rationals all `≤ v` is `≤ v`. -/
theorem np_mean_le_of_forall_le (l : List ℚ) (v : ℚ) (hl : l ≠ [])
    (hall : ∀ x ∈ l, x ≤ v) : np_mean l ≤ v := by
  have hm : 0 < l.length := List.length_pos.mpr hl
  have hsum : l.sum ≤ (l.length : ℚ) * v := by
    have := List.sum_le_card_nsmul l v hall
    simpa [nsmul_eq_mul] using this
  rw [np_mean, div_le_iff₀ (by exact_mod_cast hm)]
  linarith

/-! ### C5: `var_95` equals `percentile_5` in the metrics dictionary -/

/-- C5: for every portfolio-path array with a non-empty terminal row, the
`var_95` entry of `analyze_simulation_results` (computed by
`calculate_value_at_risk` at confidence `0.95`, i.e. the
`100 * (1 - 0.95)` linear-interpolation percentile of the terminal values)
equals its `percentile_5` entry (the 5th percentile of the same terminal
values by the same percentile function). -/
theorem var95_eq_percentile5 (paths : List (List ℚ))
    (_hne : paths.getLastD [] ≠ []) :
    (analyze_simulation_results paths).var95 = (analyze_simulation_results paths).p5 := by
  show calculate_value_at_risk paths (95 / 100) = np_percentile (paths.getLastD []) 5
  rw [calculate_value_at_risk]
  norm_num

/-- Witness for C5 at the concrete path array `[[3, 1, 2]]`. -/
theorem var95_eq_percentile5_witness :
    ([[(3 : ℚ), 1, 2]].getLastD [] ≠ []) ∧
      (analyze_simulation_results [[(3 : ℚ), 1, 2]]).var95 =
        (analyze_simulation_results [[(3 : ℚ), 1, 2]]).p5 :=
  ⟨by decide, var95_eq_percentile5 [[(3 : ℚ), 1, 2]] (by decide)⟩

/-! ### C6: Expected Shortfall is at most VaR when the tail is non-empty -/

/-- C6: for every portfolio-path array and confidence level, whenever the
shortfall tail (terminal values `≤` the VaR at that confidence) is
non-empty, the Expected Shortfall returned by
`calculate_expected_shortfall` is `≤` the VaR returned by
`calculate_value_at_risk` at the same confidence level. -/
theorem expected_shortfall_le_var (paths : List (List ℚ)) (c : ℚ)
    (hne : (paths.getLastD []).filter
      (fun x => x ≤ calculate_value_at_risk paths c) ≠ []) :
    calculate_expected_shortfall paths c ≤ calculate_value_at_risk paths c := by
  rw [calculate_expected_shortfall]
  apply np_mean_le_of_forall_le _ _ hne
  intro x hx
  have := List.of_mem_filter hx
  exact_mod_cast of_decide_eq_true this

/-- Witness for C6 at terminal values `[1, 2, 100]` and confidence `1/2`. -/
theorem expected_shortfall_le_var_witness :
    (([[(1 : ℚ), 2, 100]].getLastD []).filter
      (fun x => x ≤ calculate_value_at_risk [[(1 : ℚ), 2, 100]] (1 / 2)) ≠ []) ∧
      calculate_expected_shortfall [[(1 : ℚ), 2, 100]] (1 / 2) ≤
        calculate_value_at_risk [[(1 : ℚ), 2, 100]] (1 / 2) := by
  have hne : ([[(1 : ℚ), 2, 100]].getLastD []).filter
      (fun x => x ≤ calculate_value_at_risk [[(1 : ℚ), 2, 100]] (1 / 2)) ≠ [] := by
    have hvar : calculate_value_at_risk [[(1 : ℚ), 2, 100]] (1 / 2) = 2 := by
      norm_num [calculate_value_at_risk, np_percentile, List.insertionSort,
        List.orderedInsert]
    rw [hvar]
    norm_num [List.filter]
    exact List.cons_ne_nil _ _
  exact ⟨hne, expected_shortfall_le_var [[(1 : ℚ), 2, 100]] (1 / 2) hne⟩

/-! ### C10: the shortfall tail is never empty on non-empty input -/

/-- C10: for every portfolio-path array with a non-empty terminal row and
every confidence level in `[0, 1]`, the linear-interpolation percentile
used by `calculate_value_at_risk` is at least some terminal value (in
particular at least the minimum), so the shortfall tail
`{v : v ≤ VaR}` is non-empty and `calculate_expected_shortfall` never
averages an empty selection: the empty-tail edge case is unreachable for
non-empty inputs. -/
theorem shortfall_tail_nonempty (paths : List (List ℚ)) (c : ℚ)
    (hne : paths.getLastD [] ≠ []) (hc0 : 0 ≤ c) (hc1 : c ≤ 1) :
    (∃ x ∈ paths.getLastD [], x ≤ calculate_value_at_risk paths c) ∧
      (paths.getLastD []).filter
        (fun x => x ≤ calculate_value_at_risk paths c) ≠ [] := by
  have hq0 : (0 : ℚ) ≤ 100 * (1 - c) := by linarith
  have hq100 : 100 * (1 - c) ≤ 100 := by linarith
  obtain ⟨x, hx, hxle⟩ :=
    np_percentile_ge_some (paths.getLastD []) (100 * (1 - c)) hne hq0 hq100
  refine ⟨⟨x, hx, hxle⟩, ?_⟩
  intro hcontra
  have : x ∈ (paths.getLastD []).filter
      (fun x => x ≤ calculate_value_at_risk paths c) :=
    List.mem_filter.mpr ⟨hx, by exact_mod_cast decide_eq_true hxle⟩
  rw [hcontra] at this
  exact List.not_mem_nil _ this

/-- Witness for C10 at terminal values `[5, 1, 3]` and confidence `0.95`. -/
theorem shortfall_tail_nonempty_witness :
    (([[(5 : ℚ), 1, 3]].getLastD [] ≠ []) ∧ (0 : ℚ) ≤ 95 / 100 ∧ (95 : ℚ) / 100 ≤ 1) ∧
      (∃ x ∈ [[(5 : ℚ), 1, 3]].getLastD [],
          x ≤ calculate_value_at_risk [[(5 : ℚ), 1, 3]] (95 / 100)) ∧
        ([[(5 : ℚ), 1, 3]].getLastD []).filter
          (fun x => x ≤ calculate_value_at_risk [[(5 : ℚ), 1, 3]] (95 / 100)) ≠ [] :=
  ⟨⟨by decide, by norm_num, by norm_num⟩,
    shortfall_tail_nonempty [[(5 : ℚ), 1, 3]] (95 / 100) (by decide) (by norm_num)
      (by norm_num)⟩

/-! ### C4: `calculate_daily_returns` -/

/-- Entry identity for a zipped log-ratio row, in bounds. -/
theorem getD_zip_log (ra rb : List ℝ) (a : ℕ) (ha : a < ra.length)
    (hb : a < rb.length) :
    ((ra.zip rb).map (fun q => Real.log (q.1 / q.2))).getD a 0 =
      Real.log (ra.getD a 0 / rb.getD a 0) := by
  induction ra generalizing rb a with
  | nil => simp at ha
  | cons x xs ih =>
    cases rb with
    | nil => simp at hb
    | cons y ys =>
      cases a with
      | zero => simp
      | succ a2 => simpa using ih ys a2 (by simpa using ha) (by simpa using hb)

/-- Entry identity for the shifted log-ratio table: entry `(t, a)` of the
mapped zip is the log ratio of the price entries at rows `t+1` and `t`. -/
theorem cdr_entry (data : Mat) (t a : ℕ) (ht : t + 1 < data.length)
    (ha1 : a < (data.getD (t + 1) []).length) (ha0 : a < (data.getD t []).length) :
    ent2 ((data.tail.zip data).map (fun p =>
        (p.1.zip p.2).map (fun q => Real.log (q.1 / q.2)))) t a =
      Real.log (ent2 data (t + 1) a / ent2 data t a) := by
  induction data generalizing t with
  | nil => simp at ht
  | cons d0 rest ih =>
    cases rest with
    | nil => simp at ht
    | cons d1 rest2 =>
      cases t with
      | zero =>
        simp only [List.tail_cons, List.zip_cons_cons, List.map_cons, ent2,
          List.getD_cons_zero, List.getD_cons_succ]
        simp only [List.getD_cons_zero, List.getD_cons_succ] at ha1 ha0
        exact getD_zip_log d1 d0 a ha1 ha0
      | succ t2 =>
        simp only [List.tail_cons, List.zip_cons_cons, List.map_cons, ent2,
          List.getD_cons_succ]
        simp only [List.getD_cons_succ] at ha1 ha0
        exact ih t2 (by simpa using ht) ha1 ha0

/-- C4: for every all-positive price table, `calculate_daily_returns`
returns a matrix with exactly one fewer row than the input whose entry at
`(t, a)` is `ln(price[t+1][a] / price[t][a])` (the log return of step
`t → t+1`, i.e. row `t` of the result corresponds to input row `t+1`); and
for every price table containing an entry `≤ 0` it fails with the
invalid-input error instead of returning a value (so no `nan` result is
ever produced). -/

theorem daily_returns_spec (data : Mat) :
    ((∀ r ∈ data, ∀ x ∈ r, 0 < x) →
      ∃ R, calculate_daily_returns data = .ok R ∧
        R.length = data.length - 1 ∧
        ∀ t a, t + 1 < data.length → a < (data.getD (t + 1) []).length →
          a < (data.getD t []).length →
          ent2 R t a = Real.log (ent2 data (t + 1) a / ent2 data t a)) ∧
    ((∃ r ∈ data, ∃ x ∈ r, x ≤ 0) →
      calculate_daily_returns data = .error .invalidInput) := by
  constructor
  · intro hpos
    have hno : ¬ ∃ r ∈ data, ∃ x ∈ r, x ≤ 0 := by
      rintro ⟨r, hr, x, hx, hle⟩
      exact absurd hle (not_le.mpr (hpos r hr x hx))
    refine ⟨_, by rw [calculate_daily_returns, if_neg hno], ?_, ?_⟩
    · simp only [List.length_map, List.length_zip, List.length_tail]
      omega
    · intro t a ht ha1 ha0
      exact cdr_entry data t a ht ha1 ha0
  · intro hbad
    rw [calculate_daily_returns, if_pos hbad]

/-- Witness for C4: the positive branch at the 2-row table `[[2], [1]]`
(one return row, value `ln(1/2)`), and the error branch at `[[-1]]`. -/
theorem daily_returns_spec_witness :
    (∃ R, calculate_daily_returns [[(2 : ℝ)], [1]] = .ok R ∧
      R.length = [[(2 : ℝ)], [1]].length - 1 ∧
      ∀ t a, t + 1 < [[(2 : ℝ)], [1]].length →
        a < ([[(2 : ℝ)], [1]].getD (t + 1) []).length →
        a < ([[(2 : ℝ)], [1]].getD t []).length →
        ent2 R t a = Real.log (ent2 [[(2 : ℝ)], [1]] (t + 1) a /
          ent2 [[(2 : ℝ)], [1]] t a)) ∧
      calculate_daily_returns [[(-1 : ℝ)]] = .error .invalidInput := by
  constructor
  · refine (daily_returns_spec [[(2 : ℝ)], [1]]).1 ?_
    intro r hr x hx
    simp only [List.mem_cons, List.not_mem_nil, or_false] at hr
    rcases hr with rfl | rfl <;> simp_all
  · refine (daily_returns_spec [[(-1 : ℝ)]]).2 ?_
    exact ⟨[-1], by simp, -1, by simp, by norm_num⟩

/-! ### C8: invalid weights are rejected before any random draws -/

/-- C8: for every input whose weight count differs from the asset count or
whose weights do not sum to 1 within the code's `np.isclose(·, 1,
rtol=0.01)` tolerance, `monte_carlo_simulation` fails with the
invalid-input error, and it does so uniformly in the noise stream: the
result is the same error for every noise realization, so no random draw
influences (or is consumed by) the call and no partial simulation output
is produced. -/
theorem invalid_weights_rejected (data : Mat) (weights : List ℝ) (T S : ℕ)
    (noise : ℕ → ℕ → ℕ → ℝ)
    (hbad : weights.length ≠ (data.headD []).length ∨ ¬ np_isclose weights.sum 1) :
    monte_carlo_simulation data weights T S noise = .error .invalidInput := by
  rw [monte_carlo_simulation]
  rcases hbad with h | h
  · rw [if_pos h]
  · by_cases hlen : weights.length ≠ (data.headD []).length
    · rw [if_pos hlen]
    · rw [if_neg hlen, if_pos h]

/-- Witness for C8: two weights for a single-asset table are rejected, for
an arbitrary concrete noise stream. -/
theorem invalid_weights_rejected_witness :
    monte_carlo_simulation [[(1 : ℝ)]] [1, 1] 3 4 nu0 = .error .invalidInput :=
  invalid_weights_rejected [[(1 : ℝ)]] [1, 1] 3 4 nu0 (Or.inl (by simp))

/-! ### C9: zero volatility does not make the Sharpe computation fail -/

/-- Counterexample for C9: on the all-zero two-asset returns table the
portfolio volatility is `0`, yet `calculate_portfolio_stats` returns an
`.ok` result — the Sharpe entry is the unguarded division
`(return - RISK_FREE_RATE) / 0`, which numpy evaluates silently to
`-inf` (junk value `0` in the exact embedding) — and
`generate_random_portfolios` likewise returns a full record, since it has
no error path at all.  Neither function fails explicitly on zero
volatility, refuting the claim. -/
theorem zero_vol_sharpe_cex :
    calculate_portfolio_stats [[0, 0], [0, 0]] [1 / 2, 1 / 2] 252 =
      .ok (0, 0, (0 - RISK_FREE_RATE) / 0) ∧
      generate_random_portfolios [[0, 0], [0, 0]] [[1, 1]] 252 =
        [(0, 0, [1 / 2, 1 / 2], (0 - RISK_FREE_RATE) / 0)] := by
  have hcols : npCols [[(0 : ℝ), 0], [0, 0]] = [[0, 0], [0, 0]] := by
    norm_num [npCols, colJ, List.range_succ]
  have hcov : covMatrixOf [[(0 : ℝ), 0], [0, 0]] = [[0, 0], [0, 0]] := by
    rw [covMatrixOf, hcols]
    norm_num [covPair, meanR]
  have hmeans : colMeans [[(0 : ℝ), 0], [0, 0]] = [0, 0] := by
    rw [colMeans, hcols]
    norm_num [meanR]
  constructor
  · rw [calculate_portfolio_stats]
    rw [if_neg (not_not_intro (by norm_num [np_isclose]))]
    rw [if_neg (by norm_num)]
    rw [hcov, hmeans]
    norm_num [smulMat, quadForm, Real.sqrt_zero]
  · rw [generate_random_portfolios, hcov, hmeans]
    norm_num [smulMat, quadForm, Real.sqrt_zero]

/-- C9 amended: neither function checks the volatility.  Whenever its two
validation checks pass, `calculate_portfolio_stats` returns an `.ok`
triple — zero volatility included, the Sharpe ratio being the unguarded
total division — and `generate_random_portfolios` performs no validation
at all and returns exactly one `(return, volatility, weights, sharpe)`
record per draw, for every input. -/
theorem zero_vol_sharpe_silent (returns : Mat) (weights : List ℝ) (td : ℕ)
    (hsum : np_isclose weights.sum 1)
    (hlen : weights.length = (returns.headD []).length) :
    (∃ t, calculate_portfolio_stats returns weights td = .ok t) ∧
      ∀ draws : List (List ℝ),
        (generate_random_portfolios returns draws td).length = draws.length := by
  constructor
  · rw [calculate_portfolio_stats, if_neg (not_not_intro hsum),
      if_neg (not_not_intro hlen)]
    exact ⟨_, rfl⟩
  · intro draws
    rw [generate_random_portfolios]
    simp

/-- Witness for C9's amended theorem at the all-zero returns table. -/
theorem zero_vol_sharpe_silent_witness :
    (∃ t, calculate_portfolio_stats [[(0 : ℝ), 0], [0, 0]] [1 / 2, 1 / 2] 252 = .ok t) ∧
      (generate_random_portfolios [[(0 : ℝ), 0], [0, 0]] [[1, 1]] 252).length =
        [[(1 : ℝ), 1]].length :=
  ⟨(zero_vol_sharpe_silent [[(0 : ℝ), 0], [0, 0]] [1 / 2, 1 / 2] 252
      (by norm_num [np_isclose]) (by norm_num)).1,
    (zero_vol_sharpe_silent [[(0 : ℝ), 0], [0, 0]] [1 / 2, 1 / 2] 252
      (by norm_num [np_isclose]) (by norm_num)).2 [[1, 1]]⟩

/-! ### Shared lemmas about the factorization stage -/

/-- The zero matrix is positive semidefinite. -/
theorem psd_zero {n : ℕ} : (0 : Matrix (Fin n) (Fin n) ℝ).PosSemidef := by
  constructor
  · exact Matrix.isHermitian_zero
  · intro x
    simp

/-- Clamping the negative eigenvalues of a positive-semidefinite matrix and
reconstructing leaves the matrix unchanged: its eigenvalues are already all
non-negative, so the reconstruction is exactly the spectral decomposition
of the input. -/
theorem clampPSD_of_posSemidef {n : ℕ} (A : Matrix (Fin n) (Fin n) ℝ)
    (hA : A.PosSemidef) : clampPSD A = A := by
  rw [clampPSD, dif_pos hA.1]
  have hmax : (fun i => max (hA.1.eigenvalues i) 0) = hA.1.eigenvalues := by
    funext i
    exact max_eq_left (hA.eigenvalues_nonneg i)
  rw [hmax]
  have hofReal : (RCLike.ofReal ∘ hA.1.eigenvalues : Fin n → ℝ) = hA.1.eigenvalues := by
    funext i
    simp [RCLike.ofReal]
  have := hA.1.spectral_theorem
  rw [hofReal] at this
  exact this.symm

/-- The factorization stage escapes with `LinAlgError` exactly when both the
first attempt and the retry on the clamped matrix fail the pivot
condition. -/
theorem choleskyStage_error_iff (cov : Mat) :
    choleskyStage cov = .error .linalgFail ↔
      ¬ cholOk cov ∧ ¬ cholOk (np_eigh_clamp cov) := by
  rw [choleskyStage]
  by_cases h1 : cholOk cov
  · simp [h1]
  · by_cases h2 : cholOk (np_eigh_clamp cov) <;> simp [h1, h2]

/-- `np.linalg.cholesky` fails on the singular 1×1 covariance `[[0]]`. -/
theorem cholOk_zero1_false : ¬ cholOk [[(0 : ℝ)]] := by
  simp [cholOk]

/-- The 1×1 list matrix `[[0]]` viewed as a square matrix is `0`. -/
theorem listToMatrix_zero1 : listToMatrix 1 [[(0 : ℝ)]] = 0 := by
  ext i j
  fin_cases i
  fin_cases j
  simp [listToMatrix]

/-- The eigenvalue clamp leaves the singular covariance `[[0]]` unchanged. -/
theorem np_eigh_clamp_zero1 : np_eigh_clamp [[(0 : ℝ)]] = [[0]] := by
  rw [np_eigh_clamp]
  simp only [List.length_cons, List.length_nil, Nat.zero_add]
  rw [listToMatrix_zero1, clampPSD_of_posSemidef _ psd_zero]
  simp [matrixToList, List.finRange_succ, List.finRange_zero]

/-- Both factorization attempts fail on `[[0]]` and the error escapes. -/
theorem choleskyStage_zero1 : choleskyStage [[(0 : ℝ)]] = .error .linalgFail := by
  rw [choleskyStage, np_eigh_clamp_zero1]
  rw [if_neg cholOk_zero1_false, if_neg cholOk_zero1_false]

/-- Daily returns of the constant single-asset price table are all `0`. -/
theorem cdr_const3 : calculate_daily_returns [[(1 : ℝ)], [1], [1]] = .ok [[0], [0]] := by
  rw [calculate_daily_returns, if_neg]
  · norm_num [List.zip]
  · rintro ⟨r, hr, x, hx, hle⟩
    simp only [List.mem_cons, List.not_mem_nil, or_false] at hr
    rcases hr with rfl | rfl | rfl <;> simp_all <;> linarith

/-- Column statistics of the all-zero single-column returns table. -/
theorem stats_const3 :
    colMeans [[(0 : ℝ)], [0]] = [0] ∧ covMatrixOf [[(0 : ℝ)], [0]] = [[0]] := by
  constructor
  · norm_num [colMeans, npCols, colJ, List.range_succ, meanR]
  · norm_num [covMatrixOf, npCols, colJ, List.range_succ, covPair, meanR]

/-! ### C3: the clamped retry does not always succeed -/

/-- Counterexample for C3: on the constant price series `[[1], [1], [1]]`
(a perfectly valid all-positive input with matching weight count) the
sample covariance matrix is the singular `[[0]]`; the first Cholesky
attempt fails, the eigenvalue clamp leaves the (already positive
semidefinite) matrix unchanged, the retried factorization fails for the
same reason, and the `LinAlgError` escapes from
`monte_carlo_simulation` — the retry does not always succeed. -/
theorem cholesky_retry_fails_cex :
    monte_carlo_simulation [[(1 : ℝ)], [1], [1]] [1] 5 3 nu0 = .error .linalgFail := by
  rw [monte_carlo_simulation]
  rw [if_neg (by norm_num)]
  rw [if_neg (not_not_intro (by norm_num [np_isclose]))]
  rw [cdr_const3]
  simp only [Except.bind]
  rw [stats_const3.2, choleskyStage_zero1]

/-- C3 amended: the eigenvalue-clamping fallback leaves every positive
semidefinite matrix unchanged (its eigenvalues are already non-negative),
so the retried factorization is the original one again: the stage escapes
with the fatal `LinAlgError` exactly when both the original and the
clamped matrix fail `np.linalg.cholesky`'s positive-pivot condition —
which happens precisely for singular positive-semidefinite sample
covariances, where the clamp cannot help. -/
theorem cholesky_fallback_spec :
    (∀ n : ℕ, ∀ A : Matrix (Fin n) (Fin n) ℝ, A.PosSemidef → clampPSD A = A) ∧
      ∀ cov : Mat, choleskyStage cov = .error .linalgFail ↔
        ¬ cholOk cov ∧ ¬ cholOk (np_eigh_clamp cov) :=
  ⟨fun _ A hA => clampPSD_of_posSemidef A hA, choleskyStage_error_iff⟩

/-- Witness for C3's amended theorem at the zero matrix / the covariance
`[[0]]`. -/
theorem cholesky_fallback_spec_witness :
    clampPSD (0 : Matrix (Fin 1) (Fin 1) ℝ) = 0 ∧
      (choleskyStage [[(0 : ℝ)]] = .error .linalgFail ↔
        ¬ cholOk [[(0 : ℝ)]] ∧ ¬ cholOk (np_eigh_clamp [[(0 : ℝ)]])) :=
  ⟨cholesky_fallback_spec.1 1 0 psd_zero, cholesky_fallback_spec.2 [[(0 : ℝ)]]⟩

/-! ### Shared lemmas about array shapes and entries -/

/-- `getD` with default `[]` commutes with mapping a function over rows. -/
theorem getD_map_rows {alpha beta : Type} (f : List alpha → List beta)
    (hf : f [] = []) (l : List (List alpha)) (s : ℕ) :
    (l.map f).getD s [] = f (l.getD s []) := by
  induction l generalizing s with
  | nil => simp [hf]
  | cons r rs ih =>
    cases s with
    | zero => simp
    | succ s2 => simpa using ih s2

/-- `getD` with default `0` commutes with scaling a row. -/
theorem getD_map_mul (c : ℝ) (row : List ℝ) (a : ℕ) :
    (row.map (fun x => c * x)).getD a 0 = c * row.getD a 0 := by
  induction row generalizing a with
  | nil => simp
  | cons x xs ih =>
    cases a with
    | zero => simp
    | succ a2 => simpa using ih a2

/-- Entry access through a scalar multiple (unconditional: out of bounds,
both sides are the junk `0`). -/
theorem ent2_smulMat (c : ℝ) (M : Mat) (s a : ℕ) :
    ent2 (smulMat c M) s a = c * ent2 M s a := by
  rw [ent2, ent2, smulMat, getD_map_rows _ rfl, getD_map_mul]

/-- A scalar multiple preserves the shape. -/
theorem isRect_smulMat {M : Mat} {S n : ℕ} (c : ℝ) (h : isRect M S n) :
    isRect (smulMat c M) S n := by
  refine ⟨by simpa [smulMat] using h.1, ?_⟩
  intro r hr
  rw [smulMat] at hr
  obtain ⟨r0, hr0, rfl⟩ := List.mem_map.mp hr
  simpa using h.2 r0 hr0

/-- `getD` through the elementwise sum of two rows, in bounds. -/
theorem getD_row_add (ra rb : List ℝ) (a : ℕ) (ha : a < ra.length)
    (hb : a < rb.length) :
    (List.zipWith (· + ·) ra rb).getD a 0 = ra.getD a 0 + rb.getD a 0 := by
  induction ra generalizing rb a with
  | nil => simp at ha
  | cons x xs ih =>
    cases rb with
    | nil => simp at hb
    | cons y ys =>
      cases a with
      | zero => simp
      | succ a2 =>
        simpa using ih ys a2 (by simpa using ha) (by simpa using hb)

/-- `getD` through `addMat`, in bounds. -/
theorem getD_addMat (A B : Mat) (s : ℕ) (ha : s < A.length) (hb : s < B.length) :
    (addMat A B).getD s [] = List.zipWith (· + ·) (A.getD s []) (B.getD s []) := by
  rw [addMat]
  induction A generalizing B s with
  | nil => simp at ha
  | cons r rs ih =>
    cases B with
    | nil => simp at hb
    | cons r2 rs2 =>
      cases s with
      | zero => simp
      | succ s2 =>
        simpa using ih rs2 s2 (by simpa using ha) (by simpa using hb)

/-- Row lengths of an `S × n` array, via indices. -/
theorem isRect_row_len {M : Mat} {S n : ℕ} (h : isRect M S n) {s : ℕ} (hs : s < S) :
    (M.getD s []).length = n := by
  have hsM : s < M.length := h.1 ▸ hs
  rw [List.getD_eq_getElem _ _ hsM]
  exact h.2 _ (List.getElem_mem hsM)

/-- The elementwise sum of two `S × n` arrays is `S × n`. -/
theorem isRect_addMat {A B : Mat} {S n : ℕ} (hA : isRect A S n) (hB : isRect B S n) :
    isRect (addMat A B) S n := by
  refine ⟨by simp [addMat, List.length_zipWith, hA.1, hB.1], ?_⟩
  intro r hr
  rw [addMat] at hr
  obtain ⟨i, hi, rfl⟩ := List.mem_iff_getElem.mp hr
  rw [List.getElem_zipWith]
  have hiA : i < A.length := by
    simp only [List.length_zipWith, hA.1, hB.1] at hi ⊢; omega
  have hiB : i < B.length := by
    simp only [List.length_zipWith, hA.1, hB.1] at hi ⊢; omega
  rw [List.length_zipWith, hA.2 _ (List.getElem_mem hiA), hB.2 _ (List.getElem_mem hiB)]
  omega

/-- Entry access through an elementwise sum of equally-shaped arrays. -/
theorem ent2_addMat {A B : Mat} {S n : ℕ} (hA : isRect A S n) (hB : isRect B S n)
    {s a : ℕ} (hs : s < S) (ha : a < n) :
    ent2 (addMat A B) s a = ent2 A s a + ent2 B s a := by
  rw [ent2, ent2, ent2, getD_addMat A B s (hA.1 ▸ hs) (hB.1 ▸ hs)]
  exact getD_row_add _ _ _ (by rw [isRect_row_len hA hs]; exact ha)
    (by rw [isRect_row_len hB hs]; exact ha)

/-- Unfolding equation for `sumMats` on a list with at least two arrays. -/
theorem sumMats_cons2 (M M2 : Mat) (Ms2 : List Mat) :
    sumMats (M :: M2 :: Ms2) = addMat M (sumMats (M2 :: Ms2)) := by
  rw [sumMats]
  exact fun h => List.noConfusion h

/-- A non-empty sum of `S × n` arrays is `S × n`. -/
theorem isRect_sumMats {Ms : List Mat} {S n : ℕ} (hne : Ms ≠ [])
    (hM : ∀ M ∈ Ms, isRect M S n) : isRect (sumMats Ms) S n := by
  induction Ms with
  | nil => exact absurd rfl hne
  | cons M Ms ih =>
    cases Ms with
    | nil => simpa [sumMats] using hM M (List.mem_cons_self _ _)
    | cons M2 Ms2 =>
      rw [sumMats_cons2]
      exact isRect_addMat (hM M (List.mem_cons_self _ _))
        (ih (List.cons_ne_nil _ _) (fun N hN => hM N (List.mem_cons_of_mem _ hN)))

/-- Entry access through a sum of equally-shaped arrays: the entry of the
sum is the sum of the entries. -/
theorem ent2_sumMats {Ms : List Mat} {S n : ℕ} (hM : ∀ M ∈ Ms, isRect M S n)
    {s a : ℕ} (hs : s < S) (ha : a < n) :
    ent2 (sumMats Ms) s a = (Ms.map (fun M => ent2 M s a)).sum := by
  induction Ms with
  | nil => simp [sumMats, ent2]
  | cons M Ms ih =>
    cases Ms with
    | nil => simp [sumMats]
    | cons M2 Ms2 =>
      rw [sumMats_cons2, List.map_cons, List.sum_cons]
      rw [ent2_addMat (hM M (List.mem_cons_self _ _))
        (isRect_sumMats (List.cons_ne_nil _ _)
          (fun N hN => hM N (List.mem_cons_of_mem _ hN))) hs ha]
      rw [ih (fun N hN => hM N (List.mem_cons_of_mem _ hN))]

/-- Every member of `zipWith smulMat row Z` is a scalar multiple of a member
of `Z`. -/
theorem mem_zipWith_smulMat {row : List ℝ} {Z : Tens} {M : Mat}
    (h : M ∈ List.zipWith smulMat row Z) : ∃ c N, N ∈ Z ∧ M = smulMat c N := by
  induction row generalizing Z with
  | nil => simp at h
  | cons c cs ih =>
    cases Z with
    | nil => simp at h
    | cons N Ns =>
      rw [List.zipWith_cons_cons] at h
      rcases List.mem_cons.mp h with rfl | h2
      · exact ⟨c, N, List.mem_cons_self _ _, rfl⟩
      · obtain ⟨c2, N2, hN2, rfl⟩ := ih h2
        exact ⟨c2, N2, List.mem_cons_of_mem _ hN2, rfl⟩

/-- `getD` with default `0` commutes with broadcasting an offset over a
row, in bounds. -/
theorem getD_map_addconst (mu : ℝ) (row : List ℝ) (a : ℕ) (ha : a < row.length) :
    (row.map (fun x => mu + x)).getD a 0 = mu + row.getD a 0 := by
  induction row generalizing a with
  | nil => simp at ha
  | cons x xs ih =>
    cases a with
    | zero => simp
    | succ a2 => simpa using ih a2 (by simpa using ha)

/-- Entry access through a mean-broadcast slice (in-bounds). -/
theorem ent2_map_add (mu : ℝ) {Mi : Mat} {S n : ℕ} (hr : isRect Mi S n)
    {s a : ℕ} (hs : s < S) (ha : a < n) :
    ent2 (Mi.map (fun row => row.map (fun x => mu + x))) s a = mu + ent2 Mi s a := by
  rw [ent2, ent2, getD_map_rows _ rfl]
  exact getD_map_addconst mu _ a (by rw [isRect_row_len hr hs]; exact ha)

/-! ### C1: the noise transformation of `monte_carlo_simulation` -/

/-- Daily returns of `data1` (the single-asset exponential price series). -/
theorem cdr_data1 :
    calculate_daily_returns data1 = .ok [[-1], [-1], [0], [1], [1]] := by
  rw [calculate_daily_returns, if_neg]
  · rw [data1]
    norm_num [List.zip, Real.log_div, Real.exp_ne_zero, Real.log_exp, Real.log_one]
  · rintro ⟨r, hr, x, hx, hle⟩
    rw [data1] at hr
    simp only [List.mem_cons, List.not_mem_nil, or_false] at hr
    rcases hr with rfl | rfl | rfl | rfl | rfl | rfl <;> simp_all <;>
      linarith [Real.exp_pos (-1 : ℝ), Real.exp_pos (-2 : ℝ)]

/-- Column statistics of the `data1` returns: mean `0`, sample variance `1`. -/
theorem stats_ret1 :
    colMeans [[(-1 : ℝ)], [-1], [0], [1], [1]] = [0] ∧
      covMatrixOf [[(-1 : ℝ)], [-1], [0], [1], [1]] = [[1]] := by
  constructor <;>
    norm_num [colMeans, covMatrixOf, npCols, colJ, List.range_succ, meanR, covPair,
      List.zip]

/-- The Cholesky factor of the 1×1 identity covariance. -/
theorem cholstage_one1 : choleskyStage [[(1 : ℝ)]] = .ok [[1]] := by
  have h : cholOk [[(1 : ℝ)]] := by
    simp [cholOk, schurComp]
  rw [choleskyStage, if_pos h]
  simp [np_cholesky, schurComp, Real.sqrt_one]

/-- Counterexample for C1: a perfectly valid single-asset input (positive
prices, one weight summing to 1, positive-definite covariance) with
`time_horizon = 2`: because `np.tensordot(chol, random_numbers, axes=1)`
contracts the factor with the TIME axis of the noise tensor (not the asset
axis), the contraction requires `n_assets = time_horizon`; here `1 ≠ 2`,
so the simulation raises a shape-mismatch error instead of producing a
`(T, S, n)` daily-return tensor. -/
theorem tensordot_shape_cex :
    monte_carlo_simulation data1 [1] 2 1 nuT = .error .shapeMismatch := by
  rw [monte_carlo_simulation]
  rw [if_neg (by rw [data1]; simp)]
  rw [if_neg (not_not_intro (by norm_num [np_isclose]))]
  rw [cdr_data1]
  simp only [Except.bind]
  rw [stats_ret1.2, cholstage_one1]
  simp only [Except.bind]
  rw [dailyStage, np_tensordot, if_neg (by simp)]
  rfl

/-- `getD` through the mean broadcast: slice `i` of `addMean mean corr` is
slice `i` of `corr` with `mean[i]` added to every entry (in bounds). -/
theorem getD_addMean (mean : List ℝ) (corr : Tens) (i : ℕ)
    (h1 : i < mean.length) (h2 : i < corr.length) :
    (addMean mean corr).getD i [] =
      (corr.getD i []).map (fun row => row.map (fun x => mean.getD i 0 + x)) := by
  rw [addMean]
  induction mean generalizing corr i with
  | nil => simp at h1
  | cons mu mus ih =>
    cases corr with
    | nil => simp at h2
    | cons Mi Mis =>
      cases i with
      | zero => simp
      | succ i2 => simpa using ih Mis i2 (by simpa using h1) (by simpa using h2)

/-- C1 amended: `np.tensordot(chol, noise, axes=1)` contracts the factor
with the TIME axis of the noise tensor, not the asset axis.  The stage
succeeds only when the factor's row length (the asset count `n`) equals
the noise tensor's first-axis length (the time horizon `T`); in that case
the resulting daily-return tensor `D` has first-axis length `n` (only
numerically equal to `T`), and its entry at `(i, s, a)` is
`mean[i] + Σ_t chol[i][t] · Z[t][s][a]` — the mean vector is broadcast
along the contracted first axis (over the `(s, a)` plane), not over the
asset dimension. -/
theorem daily_stage_spec (mean : List ℝ) (M : Mat) (Z : Tens) (S n : ℕ)
    (hsq : (M.headD []).length = Z.length)
    (hrows : ∀ row ∈ M, row.length = Z.length)
    (hZne : Z ≠ [])
    (hZ : ∀ Zt ∈ Z, isRect Zt S n)
    (hmean : mean.length = M.length) :
    ∃ D, dailyStage mean M Z = .ok D ∧ D.length = M.length ∧
      ∀ i s a, i < M.length → s < S → a < n →
        ent3 D i s a = mean.getD i 0 +
          (List.zipWith (fun c Zt => c * ent2 Zt s a) (M.getD i []) Z).sum := by
  refine ⟨addMean mean (M.map (fun row => sumMats (List.zipWith smulMat row Z))),
    ?_, ?_, ?_⟩
  · rw [dailyStage, np_tensordot, if_pos hsq]
    rfl
  · rw [addMean]
    simp [List.length_zipWith, hmean]
  · intro i s a hi hs ha
    have hcorr : i < (M.map (fun row => sumMats (List.zipWith smulMat row Z))).length := by
      simpa using hi
    rw [ent3, getD_addMean _ _ _ (hmean ▸ hi) hcorr]
    have hrowmem : M.getD i [] ∈ M := by
      rw [List.getD_eq_getElem _ _ hi]
      exact List.getElem_mem hi
    have hrowlen : (M.getD i []).length = Z.length := hrows _ hrowmem
    have hzne : List.zipWith smulMat (M.getD i []) Z ≠ [] := by
      have : (List.zipWith smulMat (M.getD i []) Z).length = Z.length := by
        rw [List.length_zipWith, hrowlen, min_self]
      intro hcon
      rw [hcon] at this
      exact hZne (List.length_eq_zero.mp this.symm)
    have hall : ∀ N ∈ List.zipWith smulMat (M.getD i []) Z, isRect N S n := by
      intro N hN
      obtain ⟨c, N0, hN0, rfl⟩ := mem_zipWith_smulMat hN
      exact isRect_smulMat c (hZ N0 hN0)
    have hslice : (M.map (fun row => sumMats (List.zipWith smulMat row Z))).getD i [] =
        sumMats (List.zipWith smulMat (M.getD i []) Z) := by
      exact getD_map_rows _ rfl M i
    rw [hslice]
    show ent2 ((sumMats (List.zipWith smulMat (M.getD i []) Z)).map
      (fun row => row.map (fun x => mean.getD i 0 + x))) s a = _
    rw [ent2_map_add _ (isRect_sumMats hzne hall) hs ha]
    rw [ent2_sumMats hall hs ha]
    rw [List.map_zipWith]
    simp only [ent2_smulMat]

/-- Witness for C1's amended theorem: a concrete 2×2 factor, mean vector
`[5, 7]` and a `(2, 1, 2)` noise tensor. -/
theorem daily_stage_spec_witness :
    ∃ D, dailyStage [5, 7] [[1, 0], [0, 1]] [[[1, 2]], [[3, 4]]] = .ok D ∧
      D.length = ([[(1 : ℝ), 0], [0, 1]] : Mat).length ∧
      ∀ i s a, i < ([[(1 : ℝ), 0], [0, 1]] : Mat).length → s < 1 → a < 2 →
        ent3 D i s a = ([(5 : ℝ), 7]).getD i 0 +
          (List.zipWith (fun c Zt => c * ent2 Zt s a)
            (([[(1 : ℝ), 0], [0, 1]] : Mat).getD i [])
            [[[(1 : ℝ), 2]], [[3, 4]]]).sum :=
  daily_stage_spec [5, 7] [[1, 0], [0, 1]] [[[1, 2]], [[3, 4]]] 1 2 rfl
    (by
      intro row hr
      simp only [List.mem_cons, List.not_mem_nil, or_false] at hr
      rcases hr with rfl | rfl <;> rfl)
    (List.cons_ne_nil _ _)
    (by
      intro Zt hZt
      simp only [List.mem_cons, List.not_mem_nil, or_false] at hZt
      rcases hZt with rfl | rfl <;>
        exact ⟨rfl, by
          intro r hr
          simp only [List.mem_cons, List.not_mem_nil, or_false] at hr
          rcases hr with rfl
          rfl⟩)
    rfl

/-! ### Shared lemmas for the path-simulation stage -/

/-- The factor computed by `np_cholesky` is square, with the input's row
count. -/
theorem np_cholesky_square (A : Mat) :
    (np_cholesky A).length = A.length ∧
      ∀ row ∈ np_cholesky A, row.length = A.length := by
  suffices h : ∀ N, ∀ A : Mat, A.length = N →
      (np_cholesky A).length = A.length ∧
        ∀ row ∈ np_cholesky A, row.length = A.length by
    exact h A.length A rfl
  intro N
  induction N using Nat.strong_induction_on with
  | _ N ih =>
    intro A hA
    cases A with
    | nil => simp [np_cholesky]
    | cons r rs =>
      rw [np_cholesky]
      have hschur : (schurComp (r.headD 0) (rs.map (fun row => row.headD 0))
          (rs.map List.tail)).length = rs.length := by
        simp [schurComp, List.length_zip]
      have ihrec := ih rs.length (by rw [← hA]; simp) _ hschur
      constructor
      · simp only [List.length_cons, List.length_map, List.length_zip]
        rw [ihrec.1, hschur]
        simp
      · intro row hrow
        rcases List.mem_cons.mp hrow with rfl | h2
        · simp
        · obtain ⟨p, hp, rfl⟩ := List.mem_map.mp h2
          obtain ⟨hc1, hc2⟩ := List.of_mem_zip hp
          have : p.2.length = rs.length := (ihrec.2 p.2 hc2).trans hschur
          simp [this]

/-- `matrixToList` produces an `n × n` list matrix. -/
theorem matrixToList_square (n : ℕ) (M : Matrix (Fin n) (Fin n) ℝ) :
    (matrixToList n M).length = n ∧ ∀ row ∈ matrixToList n M, row.length = n := by
  constructor
  · simp [matrixToList]
  · intro row hrow
    rw [matrixToList] at hrow
    obtain ⟨i, hi, rfl⟩ := List.mem_map.mp hrow
    simp

/-- The eigenvalue clamp preserves the matrix size. -/
theorem np_eigh_clamp_square (cov : Mat) :
    (np_eigh_clamp cov).length = cov.length ∧
      ∀ row ∈ np_eigh_clamp cov, row.length = cov.length := by
  rw [np_eigh_clamp]
  exact matrixToList_square _ _

/-- A successful factorization stage returns a square factor of the
covariance matrix's size. -/
theorem choleskyStage_ok_square {cov chol : Mat}
    (h : choleskyStage cov = .ok chol) :
    chol.length = cov.length ∧ ∀ row ∈ chol, row.length = cov.length := by
  rw [choleskyStage] at h
  by_cases h1 : cholOk cov
  · rw [if_pos h1] at h
    injection h with h2
    subst h2
    exact np_cholesky_square cov
  · rw [if_neg h1] at h
    by_cases h2 : cholOk (np_eigh_clamp cov)
    · rw [if_pos h2] at h
      injection h with h3
      subst h3
      have hs := np_cholesky_square (np_eigh_clamp cov)
      have hc := np_eigh_clamp_square cov
      exact ⟨hs.1.trans hc.1, fun row hr => (hs.2 row hr).trans hc.1⟩
    · rw [if_neg h2] at h
      exact (Except.noConfusion h)

/-- A rowwise `zipWith` of two `S × n` arrays is `S × n`. -/
theorem isRect_zipWith2 (f : ℝ → ℝ → ℝ) {A B : Mat} {S n : ℕ}
    (hA : isRect A S n) (hB : isRect B S n) :
    isRect (List.zipWith (fun ra rb => List.zipWith f ra rb) A B) S n := by
  refine ⟨by simp [List.length_zipWith, hA.1, hB.1], ?_⟩
  intro r hr
  obtain ⟨i, hi, rfl⟩ := List.mem_iff_getElem.mp hr
  rw [List.getElem_zipWith]
  have hiA : i < A.length := by
    simp only [List.length_zipWith, hA.1, hB.1] at hi ⊢; omega
  have hiB : i < B.length := by
    simp only [List.length_zipWith, hA.1, hB.1] at hi ⊢; omega
  rw [List.length_zipWith, hA.2 _ (List.getElem_mem hiA), hB.2 _ (List.getElem_mem hiB)]
  omega

/-- `getD` through a rowwise `zipWith`, in bounds. -/
theorem getD_zipWith2 (f : ℝ → ℝ → ℝ) (A B : Mat) (s : ℕ)
    (ha : s < A.length) (hb : s < B.length) :
    (List.zipWith (fun ra rb => List.zipWith f ra rb) A B).getD s [] =
      List.zipWith f (A.getD s []) (B.getD s []) := by
  induction A generalizing B s with
  | nil => simp at ha
  | cons r rs ih =>
    cases B with
    | nil => simp at hb
    | cons r2 rs2 =>
      cases s with
      | zero => simp
      | succ s2 => simpa using ih rs2 s2 (by simpa using ha) (by simpa using hb)

/-- `getD` through an elementwise `zipWith` of two rows, in bounds. -/
theorem getD_row_zip2 (f : ℝ → ℝ → ℝ) (ra rb : List ℝ) (a : ℕ)
    (ha : a < ra.length) (hb : a < rb.length) :
    (List.zipWith f ra rb).getD a 0 = f (ra.getD a 0) (rb.getD a 0) := by
  induction ra generalizing rb a with
  | nil => simp at ha
  | cons x xs ih =>
    cases rb with
    | nil => simp at hb
    | cons y ys =>
      cases a with
      | zero => simp
      | succ a2 => simpa using ih ys a2 (by simpa using ha) (by simpa using hb)

/-- Entry access through a rowwise-elementwise `zipWith` of two
equally-shaped arrays. -/
theorem ent2_zipWith2 (f : ℝ → ℝ → ℝ) {A B : Mat} {S n : ℕ}
    (hA : isRect A S n) (hB : isRect B S n) {s a : ℕ} (hs : s < S) (ha : a < n) :
    ent2 (List.zipWith (fun ra rb => List.zipWith f ra rb) A B) s a =
      f (ent2 A s a) (ent2 B s a) := by
  rw [ent2, ent2, ent2, getD_zipWith2 f A B s (hA.1 ▸ hs) (hB.1 ▸ hs)]
  exact getD_row_zip2 f _ _ _ (by rw [isRect_row_len hA hs]; exact ha)
    (by rw [isRect_row_len hB hs]; exact ha)

/-- Mapping a function over every entry preserves the shape. -/
theorem isRect_map_rows (f : ℝ → ℝ) {Mi : Mat} {S n : ℕ} (h : isRect Mi S n) :
    isRect (Mi.map (fun row => row.map f)) S n := by
  refine ⟨by simpa using h.1, ?_⟩
  intro r hr
  obtain ⟨r0, hr0, rfl⟩ := List.mem_map.mp hr
  simpa using h.2 r0 hr0

/-- The head-with-default of a non-empty list is a member. -/
theorem headD_mem {α : Type} {l : List α} (d : α) (h : l ≠ []) : l.headD d ∈ l := by
  cases l with
  | nil => exact absurd rfl h
  | cons x xs => simp

/-- The last-with-default of a non-empty list is a member. -/
theorem getLastD_mem {α : Type} (l : List α) (d : α) (h : l ≠ []) :
    l.getLastD d ∈ l := by
  induction l generalizing d with
  | nil => exact absurd rfl h
  | cons x xs ih =>
    cases xs with
    | nil => simp
    | cons y ys =>
      rw [List.getLastD_cons]
      exact List.mem_cons_of_mem _ (ih x (List.cons_ne_nil _ _))

/-- Members of a `zipWith` come from members of the two lists. -/
theorem mem_zipWith_ex {α β γ : Type} {f : α → β → γ} {as : List α} {bs : List β}
    {x : γ} (h : x ∈ List.zipWith f as bs) : ∃ a b, a ∈ as ∧ b ∈ bs ∧ x = f a b := by
  induction as generalizing bs with
  | nil => simp at h
  | cons a as2 ih =>
    cases bs with
    | nil => simp at h
    | cons b bs2 =>
      rw [List.zipWith_cons_cons] at h
      rcases List.mem_cons.mp h with rfl | h2
      · exact ⟨a, b, List.mem_cons_self _ _, List.mem_cons_self _ _, rfl⟩
      · obtain ⟨a2, b2, ha2, hb2, rfl⟩ := ih h2
        exact ⟨a2, b2, List.mem_cons_of_mem _ ha2, List.mem_cons_of_mem _ hb2, rfl⟩

/-- `getD` through a map over `List.range`, in bounds. -/
theorem getD_range_map {α : Type} (g : ℕ → α) (d : α) (N j : ℕ) (h : j < N) :
    ((List.range N).map g).getD j d = g j := by
  rw [List.getD_eq_getElem _ _ (by simpa using h), List.getElem_map, List.getElem_range]

/-- `getD` through the weighted combination used for the portfolio sum, in
bounds. -/
theorem getD_zipWith_ent (s a : ℕ) (w : List ℝ) (pp : Tens) (j : ℕ)
    (h1 : j < w.length) (h2 : j < pp.length) :
    (List.zipWith (fun c Zt => c * ent2 Zt s a) w pp).getD j 0 =
      w.getD j 0 * ent2 (pp.getD j []) s a := by
  induction w generalizing pp j with
  | nil => simp at h1
  | cons c cs ih =>
    cases pp with
    | nil => simp at h2
    | cons N Ns =>
      cases j with
      | zero => simp
      | succ j2 => simpa using ih Ns j2 (by simpa using h1) (by simpa using h2)

/-- A list of non-negative reals with one positive member has positive sum. -/
theorem list_sum_pos_of_mem {l : List ℝ} (hnn : ∀ x ∈ l, 0 ≤ x) {x : ℝ}
    (hx : x ∈ l) (hxpos : 0 < x) : 0 < l.sum := by
  induction l with
  | nil => simp at hx
  | cons y ys ih =>
    rw [List.sum_cons]
    rcases List.mem_cons.mp hx with rfl | h2
    · have h0 : 0 ≤ ys.sum :=
        List.sum_nonneg (fun z hz => hnn z (List.mem_cons_of_mem _ hz))
      linarith
    · have h1 : 0 ≤ y := hnn y (List.mem_cons_self _ _)
      have h2s := ih (fun z hz => hnn z (List.mem_cons_of_mem _ hz)) h2
      linarith

/-- A list of non-positive reals has non-positive sum. -/
theorem list_sum_nonpos {l : List ℝ} (h : ∀ x ∈ l, x ≤ 0) : l.sum ≤ 0 := by
  induction l with
  | nil => simp
  | cons y ys ih =>
    rw [List.sum_cons]
    have h1 := h y (List.mem_cons_self _ _)
    have h2 := ih (fun z hz => h z (List.mem_cons_of_mem _ hz))
    linarith

/-- Weights that pass the `np.isclose(·, 1, rtol=0.01)` check and are all
non-negative contain a strictly positive weight. -/
theorem exists_pos_weight {w : List ℝ} (_hw : ∀ x ∈ w, 0 ≤ x)
    (hsum : np_isclose w.sum 1) : ∃ x ∈ w, 0 < x := by
  by_contra hcon
  push_neg at hcon
  have hsum0 : w.sum ≤ 0 := list_sum_nonpos (fun x hx => hcon x hx)
  rw [np_isclose, abs_one] at hsum
  have := abs_le.mp hsum
  linarith [this.1]

/-- The price-path slices stay `S × n` with strictly positive entries while
the time index is below the horizon: slice 0 is the broadcast positive
last-price row, and each later slice multiplies by a (positive)
exponential. -/
theorem pathSlice_rect_pos (T : ℕ) (init : Mat) (daily : Tens) (S n : ℕ)
    (hinit : isRect init S n)
    (hinitpos : ∀ s a, s < S → a < n → 0 < ent2 init s a)
    (hdaily : ∀ i, i < T → isRect (daily.getD i []) S n) :
    ∀ t, t < T → isRect (pathSlice T init daily t) S n ∧
      ∀ s a, s < S → a < n → 0 < ent2 (pathSlice T init daily t) s a := by
  intro t
  induction t with
  | zero => exact fun _ => ⟨hinit, hinitpos⟩
  | succ t2 ih =>
    intro hT
    have hprev := ih (by omega)
    rw [pathSlice, if_pos hT]
    have hd := hdaily (t2 + 1) hT
    refine ⟨isRect_zipWith2 _ hprev.1 hd, ?_⟩
    intro s a hs ha
    rw [ent2_zipWith2 _ hprev.1 hd hs ha]
    exact mul_pos (hprev.2 s a hs ha) (Real.exp_pos _)

/-- The slices of the materialized noise tensor are `S × n`. -/
theorem zmat_slices (T S n : ℕ) (noise : ℕ → ℕ → ℕ → ℝ) :
    ∀ Zt ∈ (List.range T).map (fun t => (List.range S).map (fun s =>
      (List.range n).map (fun a => noise t s a))), isRect Zt S n := by
  intro Zt hZt
  obtain ⟨t, ht, rfl⟩ := List.mem_map.mp hZt
  refine ⟨by simp, ?_⟩
  intro r hr
  obtain ⟨s, hs, rfl⟩ := List.mem_map.mp hr
  simp

/-- Structure of a successful `dailyStage` run with a square factor: the
shape check held, the output has one slice per factor row (bounded by the
mean length), and every slice is `S × n`. -/
theorem dailyStage_ok_struct {mean : List ℝ} {M : Mat} {Z : Tens} {daily : Tens}
    {S n : ℕ} (hZ : ∀ Zt ∈ Z, isRect Zt S n)
    (hsquare : ∀ row ∈ M, row.length = M.length)
    (hok : dailyStage mean M Z = .ok daily) :
    (M.headD []).length = Z.length ∧
      daily.length = min mean.length M.length ∧
      ∀ i, i < daily.length → isRect (daily.getD i []) S n := by
  rw [dailyStage, np_tensordot] at hok
  by_cases hsq : (M.headD []).length = Z.length
  · rw [if_pos hsq] at hok
    simp only [Except.map] at hok
    injection hok with hok2
    subst hok2
    refine ⟨hsq, ?_, ?_⟩
    · simp [addMean, List.length_zipWith]
    · intro i hi
      have hlen : i < mean.length ∧
          i < (M.map (fun row => sumMats (List.zipWith smulMat row Z))).length := by
        simp only [addMean, List.length_zipWith, lt_min_iff] at hi
        exact hi
      rw [getD_addMean _ _ _ hlen.1 hlen.2]
      rw [getD_map_rows _ rfl]
      apply isRect_map_rows
      have hiM : i < M.length := by simpa using hlen.2
      have hMne : M ≠ [] := by
        intro hcon
        rw [hcon] at hiM
        simp at hiM
      have hrowmem : M.getD i [] ∈ M := by
        rw [List.getD_eq_getElem _ _ hiM]
        exact List.getElem_mem hiM
      have hrowlen : (M.getD i []).length = M.length := hsquare _ hrowmem
      have hZlen : Z.length = M.length :=
        hsq ▸ (hsquare _ (headD_mem [] hMne)).symm ▸ rfl
      apply isRect_sumMats
      · have hlenz : (List.zipWith smulMat (M.getD i []) Z).length = M.length := by
          rw [List.length_zipWith, hrowlen, hZlen, min_self]
        intro hcon
        rw [hcon] at hlenz
        simp at hlenz
        omega
      · intro N hN
        obtain ⟨c, N0, hN0, rfl⟩ := mem_zipWith_smulMat hN
        exact isRect_smulMat c (hZ N0 hN0)
  · rw [if_neg hsq] at hok
    simp [Except.map] at hok

/-! ### C2: positivity of the returned portfolio values -/

/-- C2 amended: whenever `monte_carlo_simulation` succeeds on an
all-positive rectangular price table with NON-NEGATIVE weights (summing to
1 within tolerance, which the success implies), every entry of the
returned portfolio array — in particular every terminal value — is
strictly positive.  The original claim fails without the non-negativity
restriction (a short position can drive the weighted sum of positive
prices non-positive) and fails for `n ≠ T`, where the function errors out
instead of returning an array. -/
theorem monte_carlo_portfolio_pos (data : Mat) (weights : List ℝ) (T S : ℕ)
    (noise : ℕ → ℕ → ℕ → ℝ) (port : Mat) (pp : Tens)
    (hw : ∀ x ∈ weights, 0 ≤ x)
    (hpos : ∀ r ∈ data, ∀ x ∈ r, 0 < x)
    (hrect : ∀ r ∈ data, r.length = (data.headD []).length)
    (hok : monte_carlo_simulation data weights T S noise = .ok (port, pp)) :
    ∀ s a, s < port.length → a < (port.getD s []).length → 0 < ent2 port s a := by
  rw [monte_carlo_simulation] at hok
  by_cases hlen : weights.length ≠ (data.headD []).length
  · rw [if_pos hlen] at hok; exact (Except.noConfusion hok)
  rw [if_neg hlen] at hok
  push_neg at hlen
  by_cases hcl : ¬ np_isclose weights.sum 1
  · rw [if_pos hcl] at hok; exact (Except.noConfusion hok)
  rw [if_neg hcl] at hok
  push_neg at hcl
  cases hret : calculate_daily_returns data with
  | error e => rw [hret] at hok; exact (Except.noConfusion hok)
  | ok returns =>
  rw [hret] at hok
  simp only [Except.bind] at hok
  cases hch : choleskyStage (covMatrixOf returns) with
  | error e => rw [hch] at hok; exact (Except.noConfusion hok)
  | ok chol =>
  rw [hch] at hok
  simp only [Except.bind] at hok
  cases hds : dailyStage (colMeans returns) chol ((List.range T).map fun t =>
      (List.range S).map fun s2 => (List.range weights.length).map fun a2 =>
        noise t s2 a2) with
  | error e => rw [hds] at hok; exact (Except.noConfusion hok)
  | ok daily =>
  rw [hds] at hok
  simp only [Except.bind, Except.ok.injEq, Prod.mk.injEq] at hok
  obtain ⟨hport, hppe⟩ := hok
  subst hport
  by_cases hd0 : daily.length = 0
  · intro s a hs ha
    rw [hd0] at hs
    simp [sumMats] at hs
  -- sizes
  have hsqch := choleskyStage_ok_square hch
  have hsquare : ∀ row ∈ chol, row.length = chol.length :=
    fun row hr => (hsqch.2 row hr).trans hsqch.1.symm
  have hDS := dailyStage_ok_struct (zmat_slices T S weights.length noise) hsquare hds
  have hmlen : (colMeans returns).length = (returns.headD []).length := by
    simp [colMeans, npCols]
  have hclen : (covMatrixOf returns).length = (returns.headD []).length := by
    simp [covMatrixOf, npCols]
  have hdlen : daily.length = (returns.headD []).length := by
    rw [hDS.2.1, hmlen, hsqch.1, hclen, min_self]
  -- returns is the log-ratio table
  have hno : ¬ ∃ r ∈ data, ∃ x ∈ r, x ≤ 0 := by
    rintro ⟨r, hr, x, hx, hle⟩
    exact absurd hle (not_le.mpr (hpos r hr x hx))
  rw [calculate_daily_returns, if_neg hno] at hret
  injection hret with hretv
  -- data has at least two rows
  have hrne : returns ≠ [] := by
    intro hcon
    apply hd0
    rw [hdlen, hcon]
    simp
  have hncols : (returns.headD []).length = (data.headD []).length := by
    rcases data with _ | ⟨d0, rest⟩
    · rw [← hretv] at hrne; simp at hrne
    rcases rest with _ | ⟨d1, rest2⟩
    · rw [← hretv] at hrne; simp at hrne
    rw [← hretv]
    simp only [List.tail_cons, List.zip_cons_cons, List.map_cons, List.headD_cons]
    rw [List.length_map, List.length_zip]
    have hd1 : d1.length = (( d0 :: d1 :: rest2 : Mat).headD []).length :=
      hrect d1 (List.mem_cons_of_mem _ (List.mem_cons_self _ _))
    have hd0 : d0.length = ((d0 :: d1 :: rest2 : Mat).headD []).length :=
      hrect d0 (List.mem_cons_self _ _)
    simp only [List.headD_cons] at hd0 hd1 ⊢
    omega
  have hdn : daily.length = weights.length := by
    rw [hdlen, hncols, hlen]
  -- the time horizon equals the asset count
  have hchne : chol ≠ [] := by
    intro hcon
    rw [hcon] at hsqch
    have := hsqch.1
    simp at this
    rw [hclen] at this
    omega
  have hTn : T = weights.length := by
    have hz : ((List.range T).map fun t => (List.range S).map fun s2 =>
        (List.range weights.length).map fun a2 => noise t s2 a2).length = T := by
      simp
    have h1 := hDS.1
    rw [hz] at h1
    have h2 : (chol.headD []).length = chol.length := hsquare _ (headD_mem [] hchne)
    rw [h2, hsqch.1, hclen, hncols, ← hlen] at h1
    omega
  -- last prices are positive and have one entry per asset
  have hdne : data ≠ [] := by
    intro hcon
    rw [hcon] at hlen
    simp only [List.headD_nil, List.length_nil] at hlen
    rw [hlen] at hdn
    omega
  have hlastmem : data.getLastD [] ∈ data := getLastD_mem data [] hdne
  have hlastlen : (data.getLastD []).length = weights.length :=
    (hrect _ hlastmem).trans hlen.symm
  -- the initial slice is rectangular with positive entries
  have hinitrect : isRect ((List.range S).map fun _ => data.getLastD [])
      S weights.length := by
    refine ⟨by simp, ?_⟩
    intro r hr
    obtain ⟨t, ht, rfl⟩ := List.mem_map.mp hr
    exact hlastlen
  have hinitpos : ∀ s a, s < S → a < weights.length →
      0 < ent2 ((List.range S).map fun _ => data.getLastD []) s a := by
    intro s a hs ha
    rw [ent2, getD_range_map _ _ _ _ hs]
    have ha2 : a < (data.getLastD []).length := hlastlen ▸ ha
    rw [List.getD_eq_getElem _ _ ha2]
    exact hpos _ hlastmem _ (List.getElem_mem ha2)
  -- all price-path slices are rectangular with positive entries
  have hdaily2 : ∀ i, i < T → isRect (daily.getD i []) S weights.length := by
    intro i hi
    exact hDS.2.2 i (by rw [hTn, ← hdn] at hi; exact hi)
  have hslices := pathSlice_rect_pos T ((List.range S).map fun _ => data.getLastD [])
    daily S weights.length hinitrect hinitpos hdaily2
  -- members of the weighted-slice list are rectangular
  have hppmem : ∀ N ∈ (List.range daily.length).map
      (pathSlice T ((List.range S).map fun _ => data.getLastD []) daily),
      isRect N S weights.length ∧
        ∀ s a, s < S → a < weights.length → 0 < ent2 N s a := by
    intro N hN
    obtain ⟨t, ht, rfl⟩ := List.mem_map.mp hN
    have ht2 : t < T := by
      rw [List.mem_range] at ht
      rw [hTn, ← hdn]; exact ht
    exact ⟨(hslices t ht2).1, (hslices t ht2).2⟩
  have hallrect : ∀ N ∈ List.zipWith smulMat weights
      ((List.range daily.length).map
        (pathSlice T ((List.range S).map fun _ => data.getLastD []) daily)),
      isRect N S weights.length := by
    intro N hN
    obtain ⟨c, N0, hN0, rfl⟩ := mem_zipWith_smulMat hN
    exact isRect_smulMat c (hppmem N0 hN0).1
  have hzne : List.zipWith smulMat weights
      ((List.range daily.length).map
        (pathSlice T ((List.range S).map fun _ => data.getLastD []) daily)) ≠ [] := by
    have hlenz : (List.zipWith smulMat weights
        ((List.range daily.length).map
          (pathSlice T ((List.range S).map fun _ => data.getLastD []) daily))).length =
        weights.length := by
      rw [List.length_zipWith]
      simp [hdn]
    intro hcon
    rw [hcon] at hlenz
    simp at hlenz
    rw [← hlenz] at hdn
    omega
  have hportrect := isRect_sumMats hzne hallrect
  intro s a hs ha
  have hs2 : s < S := hportrect.1 ▸ hs
  have ha2 : a < weights.length := by
    rw [isRect_row_len hportrect hs2] at ha
    exact ha
  rw [ent2_sumMats hallrect hs2 ha2, List.map_zipWith]
  simp only [ent2_smulMat]
  -- the weighted sum has non-negative terms and one positive term
  obtain ⟨x, hxmem, hxpos⟩ := exists_pos_weight hw hcl
  obtain ⟨j, hj, hxj⟩ := List.mem_iff_getElem.mp hxmem
  have hjpp : j < ((List.range daily.length).map
      (pathSlice T ((List.range S).map fun _ => data.getLastD []) daily)).length := by
    simp [hdn]
    exact hj
  have hLlen : (List.zipWith (fun c Zt => c * ent2 Zt s a) weights
      ((List.range daily.length).map
        (pathSlice T ((List.range S).map fun _ => data.getLastD []) daily))).length =
      weights.length := by
    rw [List.length_zipWith]
    simp [hdn]
  have hel := getD_zipWith_ent s a weights
    ((List.range daily.length).map
      (pathSlice T ((List.range S).map fun _ => data.getLastD []) daily)) j hj hjpp
  have hppj : ((List.range daily.length).map
      (pathSlice T ((List.range S).map fun _ => data.getLastD []) daily)).getD j [] =
      pathSlice T ((List.range S).map fun _ => data.getLastD []) daily j := by
    apply getD_range_map
    rw [hdn]; exact hj
  have hwj : weights.getD j 0 = x := by
    rw [List.getD_eq_getElem _ _ hj, hxj]
  rw [hppj, hwj] at hel
  have hjT : j < T := by rw [hTn]; exact hj
  have helpos : 0 < x * ent2 (pathSlice T ((List.range S).map fun _ =>
      data.getLastD []) daily j) s a :=
    mul_pos hxpos ((hslices j hjT).2 s a hs2 ha2)
  apply list_sum_pos_of_mem _ _ helpos
  · intro y hy
    obtain ⟨c, N, hc, hN, rfl⟩ := mem_zipWith_ex hy
    exact mul_nonneg (hw c hc) (le_of_lt ((hppmem N hN).2 s a hs2 ha2))
  · rw [← hel]
    have hjL : j < (List.zipWith (fun c Zt => c * ent2 Zt s a) weights
        ((List.range daily.length).map
          (pathSlice T ((List.range S).map fun _ => data.getLastD []) daily))).length := by
      rw [hLlen]
      exact hj
    rw [List.getD_eq_getElem _ _ hjL]
    exact List.getElem_mem hjL

/-- A successful concrete run: single asset, `T = S = 1`, zero noise.  The
`data1` prices end at 1, the covariance is the identity, and the
portfolio array is `[[1]]`. -/
theorem mc_data1_T1_ok :
    monte_carlo_simulation data1 [1] 1 1 nu0 = .ok ([[1]], [[[1]]]) := by
  rw [monte_carlo_simulation]
  rw [if_neg (by rw [data1]; simp)]
  rw [if_neg (not_not_intro (by norm_num [np_isclose]))]
  rw [cdr_data1]
  simp only [Except.bind]
  rw [stats_ret1.2, cholstage_one1]
  simp only [Except.bind]
  rw [stats_ret1.1, dailyStage, np_tensordot]
  norm_num [List.range_succ, nu0, smulMat, sumMats, addMean, Except.map, Except.bind,
    pathSlice, data1, List.getLastD_cons, List.getLastD_nil]

/-- Witness for C2's amended theorem: applying it to the successful run
above shows the single portfolio entry is strictly positive. -/
theorem monte_carlo_portfolio_pos_witness :
    0 < ent2 [[(1 : ℝ)]] 0 0 := by
  refine monte_carlo_portfolio_pos data1 [1] 1 1 nu0 [[1]] [[[1]]] ?_ ?_ ?_
    mc_data1_T1_ok 0 0 (by norm_num) (by norm_num)
  · intro x hx
    simp only [List.mem_cons, List.not_mem_nil, or_false] at hx
    subst hx
    norm_num
  · intro r hr x hx
    rw [data1] at hr
    simp only [List.mem_cons, List.not_mem_nil, or_false] at hr
    rcases hr with rfl | rfl | rfl | rfl | rfl | rfl <;> simp_all <;> positivity
  · intro r hr
    rw [data1] at hr
    simp only [List.mem_cons, List.not_mem_nil, or_false] at hr
    rcases hr with rfl | rfl | rfl | rfl | rfl | rfl <;> rw [data1] <;> rfl

/-- Daily returns of `data2` (the two-asset exponential price series). -/
theorem cdr_data2 :
    calculate_daily_returns data2 =
      .ok [[-1, 1], [-1, -1], [0, 0], [1, -1], [1, 1]] := by
  rw [calculate_daily_returns, if_neg]
  · rw [data2]
    norm_num [List.zip, Real.log_div, Real.exp_ne_zero, Real.log_exp, Real.log_one]
  · rintro ⟨r, hr, x, hx, hle⟩
    rw [data2] at hr
    simp only [List.mem_cons, List.not_mem_nil, or_false] at hr
    rcases hr with rfl | rfl | rfl | rfl | rfl | rfl <;>
      (simp only [List.mem_cons, List.not_mem_nil, or_false] at hx
       rcases hx with rfl | rfl <;>
         linarith [Real.exp_pos (-1 : ℝ), Real.exp_pos (-2 : ℝ), Real.exp_pos (1 : ℝ)])

/-- Column statistics of the `data2` returns: zero means, identity sample
covariance. -/
theorem stats_ret2 :
    colMeans [[(-1 : ℝ), 1], [-1, -1], [0, 0], [1, -1], [1, 1]] = [0, 0] ∧
      covMatrixOf [[(-1 : ℝ), 1], [-1, -1], [0, 0], [1, -1], [1, 1]] =
        [[1, 0], [0, 1]] := by
  constructor <;>
    norm_num [colMeans, covMatrixOf, npCols, colJ, List.range_succ, meanR, covPair,
      List.zip]

/-- The Cholesky factor of the 2×2 identity covariance is the identity. -/
theorem cholstage_id2 :
    choleskyStage [[(1 : ℝ), 0], [0, 1]] = .ok [[1, 0], [0, 1]] := by
  have h : cholOk [[(1 : ℝ), 0], [0, 1]] := by
    norm_num [cholOk, schurComp, List.zip]
  rw [choleskyStage, if_pos h]
  norm_num [np_cholesky, schurComp, List.zip, Real.sqrt_one]

/-- Counterexample for C2: a valid all-positive two-asset price series with
weights `[2, -1]` (which sum to exactly 1 and pass validation) and a noise
draw of `1` at the second time step.  The simulation succeeds — with
`n = T = 2` the shape hazard does not fire — but both entries of the
returned portfolio array's terminal row are `2 - e < 0`: the terminal
values are not strictly positive. -/
theorem portfolio_negative_cex :
    monte_carlo_simulation data2 [2, -1] 2 1 nuT =
      .ok ([[2 - Real.exp 1, 2 - Real.exp 1]],
        [[[1, 1]], [[Real.exp 1, Real.exp 1]]]) ∧
      2 - Real.exp 1 < 0 := by
  constructor
  · rw [monte_carlo_simulation]
    rw [if_neg (by rw [data2]; simp)]
    rw [if_neg (not_not_intro (by norm_num [np_isclose]))]
    rw [cdr_data2]
    simp only [Except.bind]
    rw [stats_ret2.2, cholstage_id2]
    simp only [Except.bind]
    rw [stats_ret2.1, dailyStage, np_tensordot]
    norm_num [List.range_succ, nuT, smulMat, sumMats, addMat, addMean, Except.map,
      Except.bind, pathSlice, data2, List.getLastD_cons, List.getLastD_nil,
      List.replicate_succ, List.zipWith_cons_cons]
    rfl
  · have := Real.exp_one_gt_d9
    linarith
